import Mathlib

/-!
# Verification of the bilingual-subtitle pipeline (process.py)

A shallow embedding of the pure logic of
`src/skills/bilingual-subtitle/scripts/process.py`:

* subtitle text handling (`parse_srt`, `write_srt`) over `List Char`,
* the no-speech-probability filter of `extract_subtitles`,
* the translation stage (`translate_batch`, `translate_single`,
  `translate_subtitles`) with the endpoint abstracted as an oracle,
* the karaoke per-word directive assembly of `generate_karaoke_ass`,
* encoder discovery and selection (`get_available_encoders`,
  `select_encoder`) and the bitrate default of `burn_subtitles` /
  `get_video_info`.

Python floats appearing in time/probability arithmetic are modelled as
rationals; machine strings as `List Char` (`PyStr`); fallible external
calls as `Option`-valued oracles.
-/

/-- Strings of the Python program, modelled as lists of characters. -/
abbrev PyStr := List Char

/-- The newline character. -/
def nl : Char := Char.ofNat 10

/-- Python `str.strip()` whitespace class: space, tab, LF, VT, FF, CR. -/
def isPySpace (c : Char) : Bool :=
  c = ' ' || c = Char.ofNat 9 || c = Char.ofNat 10 ||
  c = Char.ofNat 11 || c = Char.ofNat 12 || c = Char.ofNat 13

/-- Python `str.strip()`: drop whitespace from both ends. -/
def pyStrip (s : PyStr) : PyStr :=
  (s.dropWhile isPySpace).rdropWhile isPySpace

/-- Python `str.split(chr(10))`: split on every single newline
(always returns at least one chunk; empty string gives one empty chunk). -/
def splitNl : PyStr → List PyStr
  | [] => [[]]
  | c :: rest =>
    if c = nl then [] :: splitNl rest
    else (c :: (splitNl rest).headI) :: (splitNl rest).tail

/-- Python: joining `lines` with the newline character. -/
def joinNl : List PyStr → PyStr
  | [] => []
  | [s] => s
  | s :: l => s ++ nl :: joinNl l

/-! ## `get_video_info` / `burn_subtitles`: source bitrate (C10)

`get_video_info` probes the stream bitrate, then — when that gave `None`
or `0` (Python falsiness) — the container bitrate.  Each probe result is
modelled as `Option Nat` (`none` = exception or empty ffprobe output). -/

/-- The `bitrate` field computed by `get_video_info` from the outcomes of
the stream-bitrate probe `p1` and the format-bitrate probe `p2`. -/
def get_video_info_bitrate (p1 p2 : Option Nat) : Option Nat :=
  if p1 = none ∨ p1 = some 0 then
    match p2 with
    | some w => some w
    | none => p1
  else p1

/-- The target bitrate in kbps computed by `burn_subtitles`:
`(src_bitrate // 1000) if src_bitrate else 2000`. -/
def burn_bitrate_kbps (p1 p2 : Option Nat) : Nat :=
  match get_video_info_bitrate p1 p2 with
  | some b => if b ≠ 0 then b / 1000 else 2000
  | none => 2000

/-! ## `get_available_encoders` (C5) -/

/-- `p` is a prefix of `s`. -/
def strStarts : PyStr → PyStr → Bool
  | [], _ => true
  | _ :: _, [] => false
  | p :: ps, c :: cs => p = c && strStarts ps cs

/-- Python `p in s`: substring containment. -/
def containsSub (p : PyStr) : PyStr → Bool
  | [] => p.isEmpty
  | c :: cs => strStarts p (c :: cs) || containsSub p cs

/-- Python `enc in line` on ordinary strings. -/
def strContains (line enc : String) : Bool :=
  containsSub enc.toList line.toList

/-- The fixed candidate list hard-coded in `get_available_encoders`. -/
def encoder_candidates : List String :=
  ["hevc_nvenc", "h264_nvenc", "hevc_amf", "h264_amf",
   "hevc_qsv", "h264_qsv", "h264_videotoolbox", "hevc_videotoolbox",
   "libx265", "libx264", "libopenh264"]

/-- `get_available_encoders`: scan every stdout line of
`ffmpeg -hide_banner -encoders` for each candidate name; a failed query
(`none`) yields the empty set.  The Python `set` is modelled as a
duplicate-free list built by conditional insertion. -/
def get_available_encoders (out : Option (List String)) : List String :=
  match out with
  | none => []
  | some lines =>
    lines.foldl (fun acc line =>
      encoder_candidates.foldl (fun acc2 enc =>
        if strContains line enc then
          (if enc ∈ acc2 then acc2 else acc2 ++ [enc])
        else acc2) acc) []

/-! ## `select_encoder` (C3) -/

/-- Bitrate option string `s!"{k}k"`. -/
def kstr (k : Nat) : String := toString k ++ "k"

/-- The NVENC option list: preset p4, target bitrate, maxrate
`int(bitrate_kbps * 1.5)` (exact float product, truncated: `3*k/2`),
bufsize `bitrate_kbps * 2`. -/
def nvenc_opts (k : Nat) : List String :=
  ["-preset", "p4", "-b:v", kstr k,
   "-maxrate", kstr (3 * k / 2), "-bufsize", kstr (2 * k)]

/-- `select_encoder(available_encoders, bit_depth, bitrate_kbps)`; the
`platform.system()` value is passed explicitly.  The cascade of `if`
blocks of the source falls through section by section, which the
else-if chain reproduces. -/
def select_encoder (avail : List String) (system : String)
    (bit_depth : Nat) (k : Nat) : Option (String × List String) :=
  if bit_depth = 10 ∧ "hevc_nvenc" ∈ avail then
    some ("hevc_nvenc", nvenc_opts k)
  else if bit_depth = 10 ∧ "hevc_amf" ∈ avail then
    some ("hevc_amf", ["-b:v", kstr k])
  else if bit_depth = 10 ∧ "hevc_qsv" ∈ avail then
    some ("hevc_qsv", ["-b:v", kstr k])
  else if bit_depth = 10 ∧ "hevc_videotoolbox" ∈ avail then
    some ("hevc_videotoolbox", ["-b:v", kstr k])
  else if bit_depth = 10 ∧ "libx265" ∈ avail then
    some ("libx265", ["-preset", "medium", "-b:v", kstr k])
  else if system = "Darwin" ∧ "h264_videotoolbox" ∈ avail then
    some ("h264_videotoolbox", ["-b:v", kstr k])
  else if system = "Darwin" ∧ "hevc_videotoolbox" ∈ avail then
    some ("hevc_videotoolbox", ["-b:v", kstr k])
  else if "h264_nvenc" ∈ avail ∧ bit_depth = 8 then
    some ("h264_nvenc", nvenc_opts k)
  else if "hevc_nvenc" ∈ avail then
    some ("hevc_nvenc", nvenc_opts k)
  else if "h264_amf" ∈ avail ∧ bit_depth = 8 then
    some ("h264_amf", ["-b:v", kstr k])
  else if "hevc_amf" ∈ avail then
    some ("hevc_amf", ["-b:v", kstr k])
  else if "h264_qsv" ∈ avail ∧ bit_depth = 8 then
    some ("h264_qsv", ["-b:v", kstr k])
  else if "hevc_qsv" ∈ avail then
    some ("hevc_qsv", ["-b:v", kstr k])
  else if "libx265" ∈ avail then
    some ("libx265", ["-preset", "medium", "-b:v", kstr k])
  else if "libx264" ∈ avail then
    some ("libx264", ["-preset", "fast", "-b:v", kstr k])
  else if "libopenh264" ∈ avail then
    some ("libopenh264", ["-b:v", kstr k])
  else none

/-- The 10-bit HEVC preference order stated by the spec. -/
def hevc_pref : List String :=
  ["hevc_nvenc", "hevc_amf", "hevc_qsv", "hevc_videotoolbox", "libx265"]

/-! ## `generate_karaoke_ass`: per-word directives (C4) -/

/-- Python `int()` on a rational: truncation toward zero
(`tdiv` is integer division truncating toward zero). -/
def pyInt (q : ℚ) : ℤ := q.num.tdiv (q.den : ℤ)

/-- A word with its timestamps (`end` is a Lean keyword; field `stop`
models the source key `end`). -/
structure KWord where
  start : ℚ
  stop : ℚ
  word : PyStr
deriving DecidableEq, Repr

/-- One fill-highlight (`\kf`) directive of the karaoke line: its
centisecond duration and the wrapped word. -/
structure KDirective where
  durCs : ℤ
  word : PyStr
deriving DecidableEq, Repr

/-- The karaoke line built by `generate_karaoke_ass` for a segment with
word timestamps: the loop appends, per word, one directive with duration
`int((word.end - word.start) * 100)`. -/
def karaoke_directives (ws : List KWord) : List KDirective :=
  ws.foldl (fun acc w =>
    acc ++ [{ durCs := pyInt ((w.stop - w.start) * 100), word := w.word }]) []

/-! ## `parse_srt` / `write_srt` (C8) -/

/-- One SRT block: `index`, `timestamp`, `text` as read or written by
`parse_srt` / `write_srt`. -/
structure SubtitleRecord where
  index : PyStr
  timestamp : PyStr
  text : PyStr
deriving DecidableEq, Repr

/-- The characters one block contributes before its blank-line
terminator: `f"{index}\n{timestamp}\n{text}"` (escapes spelt out). -/
def blockStr (b : SubtitleRecord) : PyStr :=
  b.index ++ (nl :: (b.timestamp ++ (nl :: b.text)))

/-- `write_srt`: the full file contents, each block followed by two
newlines. -/
def write_srt (blocks : List SubtitleRecord) : PyStr :=
  (blocks.map (fun b => blockStr b ++ [nl, nl])).flatten

/-- State of the blank-line splitter: accumulating a chunk, having just
seen one newline (maybe literal, maybe the start of a break), or
swallowing the tail of a newline run after a break. -/
inductive SBState where
  | normal : PyStr → SBState
  | seenNl : PyStr → SBState
  | skipping : SBState

/-- Splitting on the regex of two-or-more newlines
(`re.split` with pattern newline-newline-plus), as a single left-to-right
scan: a chunk is emitted at each maximal run of at least two newlines and
the whole run is swallowed. -/
def splitBlankGo : SBState → PyStr → List PyStr
  | SBState.normal acc, [] => [acc.reverse]
  | SBState.seenNl acc, [] => [(nl :: acc).reverse]
  | SBState.skipping, [] => [[]]
  | SBState.normal acc, c :: cs =>
    if c = nl then splitBlankGo (SBState.seenNl acc) cs
    else splitBlankGo (SBState.normal (c :: acc)) cs
  | SBState.seenNl acc, c :: cs =>
    if c = nl then acc.reverse :: splitBlankGo SBState.skipping cs
    else splitBlankGo (SBState.normal (c :: nl :: acc)) cs
  | SBState.skipping, c :: cs =>
    if c = nl then splitBlankGo SBState.skipping cs
    else splitBlankGo (SBState.normal [c]) cs

/-- `re.split` on runs of two or more newlines. -/
def splitBlank (s : PyStr) : List PyStr := splitBlankGo (SBState.normal []) s

/-- `parse_srt(content)`: strip, split into blocks on blank lines, keep
every block of at least three lines as (first line, second line, rest
joined by newlines). -/
def parse_srt (content : PyStr) : List SubtitleRecord :=
  (splitBlank (pyStrip content)).filterMap (fun block =>
    let lines := splitNl block
    if 3 ≤ lines.length then
      some ⟨lines.getD 0 [], lines.getD 1 [], joinNl (lines.drop 2)⟩
    else none)

/-- Whether a double newline occurs in the string. -/
def hasDblNl : PyStr → Bool
  | c :: c2 :: rest => (c = nl && c2 = nl) || hasDblNl (c2 :: rest)
  | _ => false

/-- Well-formedness under which the write/parse round trip is exact:
nonempty single-line index and timestamp, the index not opening with
whitespace, and nonempty text with no blank line inside, not opening
with a newline nor closing with whitespace. -/
def wfRecord (b : SubtitleRecord) : Prop :=
  b.index ≠ [] ∧ nl ∉ b.index ∧ isPySpace b.index.headI = false ∧
  b.timestamp ≠ [] ∧ nl ∉ b.timestamp ∧
  b.text ≠ [] ∧ hasDblNl b.text = false ∧ b.text.headI ≠ nl ∧
  isPySpace (b.text.getLastD 'x') = false

instance (b : SubtitleRecord) : Decidable (wfRecord b) := by
  unfold wfRecord; infer_instance

/-! ## `extract_subtitles`: no-speech filtering (C2)

The three backends share the same filter; only the mlx backend reads the
probability with `seg.get(..., 0)` (it may be absent).  Raw segments are
modelled with their timing/text payload and the probability field. -/

/-- A raw segment of the mlx-whisper backend (dict: the probability key
may be missing). -/
structure MlxSeg where
  start : ℚ
  stop : ℚ
  text : PyStr
  no_speech_prob : Option ℚ
deriving DecidableEq

/-- A raw segment of either faster-whisper backend (attribute always
present). -/
structure FwSeg where
  start : ℚ
  stop : ℚ
  text : PyStr
  no_speech_prob : ℚ
  words : List KWord
deriving DecidableEq

/-- The mlx branch of `extract_subtitles`: keep segments whose
`seg.get(no_speech_prob, 0)` does not exceed the threshold, count the
rest. -/
def extract_filter_mlx (thr : ℚ) : List MlxSeg → List MlxSeg × Nat
  | [] => ([], 0)
  | s :: rest =>
    let r := extract_filter_mlx thr rest
    if thr < s.no_speech_prob.getD 0 then (r.1, r.2 + 1) else (s :: r.1, r.2)

/-- The faster-whisper (CUDA and CPU) branches of `extract_subtitles`:
keep segments whose `no_speech_prob` does not exceed the threshold,
count the rest.  (The retained segment is repacked into a dict with the
same `start`/`end`/`text`/`words` fields; the record itself stands for
that dict.) -/
def extract_filter_fw (thr : ℚ) : List FwSeg → List FwSeg × Nat
  | [] => ([], 0)
  | s :: rest =>
    let r := extract_filter_fw thr rest
    if thr < s.no_speech_prob then (r.1, r.2 + 1) else (s :: r.1, r.2)

/-! ## Translation stage (C1, C6, C7, C9)

The network endpoint is abstracted as oracles: `bo` gives the outcome of
one batch request (`none` = exception), `so` of one single-item request.
-/

/-- The separator the batch request is joined with: `"\n###\n"`. -/
def sepJoin : PyStr := [nl, '#', '#', '#', nl]

/-- Python `translated.split("###")`: split on every occurrence of three
hashes, left to right, non-overlapping. -/
def splitSep3Aux : PyStr → PyStr → List PyStr
  | acc, [] => [acc.reverse]
  | acc, [c] => [(c :: acc).reverse]
  | acc, [c, c2] => [(c2 :: c :: acc).reverse]
  | acc, c :: c2 :: c3 :: rest =>
    if c = '#' ∧ c2 = '#' ∧ c3 = '#' then
      acc.reverse :: splitSep3Aux [] rest
    else splitSep3Aux (c :: acc) (c2 :: c3 :: rest)

/-- Split a string on `"###"`. -/
def splitSep3 (s : PyStr) : List PyStr := splitSep3Aux [] s

/-- `translate_batch`: empty input is returned as is; otherwise one
request on the texts joined with `sepJoin`, and the response split on
three hashes; `none` on a failed request. -/
def translate_batch (o : PyStr → Option PyStr) (texts : List PyStr) :
    Option (List PyStr) :=
  if texts = [] then some texts
  else
    match o (List.intercalate sepJoin texts) with
    | some resp => some (splitSep3 resp)
    | none => none

/-- `translate_single`: blank text is returned untouched without a
request; a failed request returns the input text. -/
def translate_single (so : PyStr → Option PyStr) (text : PyStr) : PyStr :=
  if pyStrip text = [] then text
  else
    match so text with
    | some t => t
    | none => text

/-- Scanner for `chunkList`: `k` elements still fit in the open chunk
`acc`. -/
def chunkGo (n : Nat) : Nat → List α → List α → List (List α)
  | _, acc, [] => [acc.reverse]
  | 0, acc, a :: l => acc.reverse :: chunkGo n (n - 1) [a] l
  | k + 1, acc, a :: l => chunkGo n k (a :: acc) l

/-- Consecutive slices `texts[i:i+n]` of the batching loop. -/
def chunkList (n : Nat) : List α → List (List α)
  | [] => []
  | a :: l => chunkGo n (n - 1) [a] l

/-- One iteration of the `translate_subtitles` loop body on a chunk:
use the batch result when it is truthy and of matching length
(each entry stripped), otherwise translate each item individually. -/
def translate_chunk (bo : List PyStr → Option (List PyStr))
    (so : PyStr → Option PyStr) (batch : List PyStr) : List PyStr :=
  match bo batch with
  | some r =>
    if r ≠ [] ∧ r.length = batch.length then r.map pyStrip
    else batch.map (translate_single so)
  | none => batch.map (translate_single so)

/-- The body of `translate_subtitles` on already-prepared texts:
process the chunks in order, concatenating their results. -/
def translate_texts (bo : List PyStr → Option (List PyStr))
    (so : PyStr → Option PyStr) (texts : List PyStr) (n : Nat) : List PyStr :=
  ((chunkList n texts).map (translate_chunk bo so)).flatten

/-- `translate_subtitles`: strips every segment text on entry, then runs
the batching loop. -/
def translate_subtitles (bo : List PyStr → Option (List PyStr))
    (so : PyStr → Option PyStr) (segTexts : List PyStr) (n : Nat) :
    List PyStr :=
  translate_texts bo so (segTexts.map pyStrip) n

/-- Observable events of the translation loop: a batch request, an
individual fallback request, or a `time.sleep` (duration in
centiseconds). -/
inductive TEvent where
  | batchCall : List PyStr → TEvent
  | singleItem : PyStr → TEvent
  | sleep : Nat → TEvent
deriving DecidableEq, Repr

/-- The events one loop iteration emits: the batch request; on failure
one individual request plus a 0.1 s sleep per item; then the
unconditional 0.2 s sleep that closes the iteration. -/
def chunkTrace (bo : List PyStr → Option (List PyStr))
    (batch : List PyStr) : List TEvent :=
  TEvent.batchCall batch ::
    (match bo batch with
     | some r =>
       if r ≠ [] ∧ r.length = batch.length then []
       else (batch.map (fun t => [TEvent.singleItem t, TEvent.sleep 10])).flatten
     | none =>
       (batch.map (fun t => [TEvent.singleItem t, TEvent.sleep 10])).flatten)
    ++ [TEvent.sleep 20]

/-- The full event trace of `translate_subtitles`. -/
def translate_trace (bo : List PyStr → Option (List PyStr))
    (segTexts : List PyStr) (n : Nat) : List TEvent :=
  ((chunkList n (segTexts.map pyStrip)).map (chunkTrace bo)).flatten

/-- A batch request occurs somewhere in the trace. -/
def hasBatch : List TEvent → Bool
  | [] => false
  | TEvent.batchCall _ :: _ => true
  | _ :: r => hasBatch r

/-- A sleep occurs with a batch request somewhere after it. -/
def sleepThenBatch : List TEvent → Bool
  | [] => false
  | TEvent.sleep _ :: r => hasBatch r || sleepThenBatch r
  | _ :: r => sleepThenBatch r

/-- Some sleep lies strictly between two batch requests. -/
def sleepBetweenBatches : List TEvent → Bool
  | [] => false
  | TEvent.batchCall _ :: r => sleepThenBatch r
  | _ :: r => sleepBetweenBatches r

/-- A chunk whose batch request succeeds with a usable result. -/
def batchSucceeds (bo : List PyStr → Option (List PyStr))
    (batch : List PyStr) : Prop :=
  ∃ r, bo batch = some r ∧ r ≠ [] ∧ r.length = batch.length

/-- Blocks joined by the double-newline separator that `write_srt` puts
between them (the trailing one stripped). -/
def joinBlank : List PyStr → PyStr
  | [] => []
  | [s] => s
  | s :: l => s ++ nl :: nl :: joinBlank l

/-! # Theorems -/

/-! ## Generic helpers -/

theorem foldl_append_eq_map {α β : Type} (f : α → β) :
    ∀ (l : List α) (acc : List β),
      l.foldl (fun a x => a ++ [f x]) acc = acc ++ l.map f
  | [], acc => by simp
  | x :: l, acc => by
    simp [List.foldl_cons, foldl_append_eq_map f l]

theorem pyInt_eq_floor (q : ℚ) (h : 0 ≤ q) : pyInt q = ⌊q⌋ := by
  unfold pyInt
  rw [Rat.floor_def]
  exact Int.tdiv_eq_ediv (Rat.num_nonneg.mpr h) (Int.ofNat_nonneg _)

/-! ## C10: default bitrate -/

/-- Claim C10 (amended): the encode uses 2000 kbps not only when every
probe yields no value but whenever the determined bitrate is `None` or
`0` (Python falsiness); a nonzero determined bitrate `b` gives
`b / 1000` kbps. -/
theorem burn_bitrate_default_spec (p1 p2 : Option Nat) :
    get_video_info_bitrate none none = none ∧
    (get_video_info_bitrate p1 p2 = none → burn_bitrate_kbps p1 p2 = 2000) ∧
    (get_video_info_bitrate p1 p2 = some 0 → burn_bitrate_kbps p1 p2 = 2000) ∧
    (∀ b : Nat, get_video_info_bitrate p1 p2 = some b → b ≠ 0 →
      burn_bitrate_kbps p1 p2 = b / 1000) := by
  refine ⟨rfl, ?_, ?_, ?_⟩
  · intro h
    simp [burn_bitrate_kbps, h]
  · intro h
    simp [burn_bitrate_kbps, h]
  · intro b h hb
    simp [burn_bitrate_kbps, h, hb]

/-- Witness for C10 at concrete probe outcomes. -/
theorem burn_bitrate_default_spec_witness :
    get_video_info_bitrate (some 1500000) none = some 1500000 ∧
    (1500000 : Nat) ≠ 0 ∧
    burn_bitrate_kbps (some 1500000) none = 1500000 / 1000 :=
  ⟨by decide, by decide,
    (burn_bitrate_default_spec (some 1500000) none).2.2.2 1500000
      (by decide) (by decide)⟩

/-- Claim C10 counterexample: a probe that reports a bitrate of `0`
(so not "every probe yields no value") still gets the 2000 kbps default,
not `0 // 1000 = 0`. -/
theorem burn_bitrate_zero_counterexample :
    get_video_info_bitrate (some 0) none = some 0 ∧
    burn_bitrate_kbps (some 0) none = 2000 ∧ (0 : Nat) / 1000 ≠ 2000 := by
  decide

/-! ## C5: encoder listing -/

theorem mem_encoder_line_fold (line : String) (e : String) :
    ∀ (cands : List String) (acc : List String),
      e ∈ cands.foldl (fun acc2 enc =>
          if strContains line enc then
            (if enc ∈ acc2 then acc2 else acc2 ++ [enc])
          else acc2) acc ↔
        e ∈ acc ∨ (e ∈ cands ∧ strContains line e = true)
  | [], acc => by simp
  | c :: cands, acc => by
    rw [List.foldl_cons, mem_encoder_line_fold line e cands]
    by_cases hc : strContains line c
    · by_cases hm : c ∈ acc
      · by_cases he : e = c
        · subst he
          simp [hc, hm]
        · simp [hc, hm, he]
      · by_cases he : e = c
        · subst he
          simp [hc, hm]
        · simp [hc, hm, he]
    · by_cases he : e = c
      · subst he
        simp [hc]
      · simp [hc, he]

theorem mem_encoder_lines_fold (e : String) :
    ∀ (lines : List String) (acc : List String),
      e ∈ lines.foldl (fun acc line =>
          encoder_candidates.foldl (fun acc2 enc =>
            if strContains line enc then
              (if enc ∈ acc2 then acc2 else acc2 ++ [enc])
            else acc2) acc) acc ↔
        e ∈ acc ∨ (e ∈ encoder_candidates ∧
          ∃ line ∈ lines, strContains line e = true)
  | [], acc => by simp
  | line :: lines, acc => by
    rw [List.foldl_cons, mem_encoder_lines_fold e lines,
      mem_encoder_line_fold line e]
    constructor
    · rintro ((h | h) | h)
      · exact Or.inl h
      · exact Or.inr ⟨h.1, line, by simp, h.2⟩
      · exact Or.inr ⟨h.1, h.2.choose, by simp [h.2.choose_spec.1],
          h.2.choose_spec.2⟩
    · rintro (h | ⟨hc, l, hl, hcon⟩)
      · exact Or.inl (Or.inl h)
      · rcases List.mem_cons.mp hl with rfl | hl
        · exact Or.inl (Or.inr ⟨hc, hcon⟩)
        · exact Or.inr ⟨hc, l, hl, hcon⟩

/-- Claim C5 (amended): `get_available_encoders` returns exactly the
candidates that occur as a substring of some line of the capability
query's output — the intersection of the reported encoders with the
fixed candidate set — and a failed query yields the empty set; the
candidate set has eleven members, not fourteen. -/
theorem get_available_encoders_spec :
    get_available_encoders none = [] ∧
    (∀ (lines : List String) (e : String),
      e ∈ get_available_encoders (some lines) ↔
        (e ∈ encoder_candidates ∧ ∃ line ∈ lines, strContains line e = true)) ∧
    encoder_candidates.length = 11 := by
  refine ⟨rfl, ?_, by decide⟩
  intro lines e
  unfold get_available_encoders
  rw [mem_encoder_lines_fold e lines []]
  simp

/-- Claim C5 counterexample: the fixed candidate set has eleven
identifiers, not fourteen as claimed. -/
theorem encoder_candidates_not_fourteen :
    encoder_candidates.length = 11 ∧ encoder_candidates.length ≠ 14 := by
  decide

/-! ## C4: karaoke durations -/

/-- Claim C4 (amended): the karaoke assembler emits one fill-highlight
directive per word, in word order, whose duration in hundredths of a
second is `int((word.end - word.start) * 100)` — Python `int()`
truncation (the floor for the nonnegative durations), not `round`. -/
theorem karaoke_directives_trunc (ws : List KWord) :
    karaoke_directives ws =
      ws.map (fun w =>
        { durCs := pyInt ((w.stop - w.start) * 100), word := w.word }) := by
  unfold karaoke_directives
  rw [foldl_append_eq_map]
  simp

/-- Claim C4 counterexample: a word lasting `9/500 = 0.018` seconds gets
directive duration `int(1.8) = 1`, while the claimed `round(1.8)` is 2. -/
theorem karaoke_round_counterexample :
    karaoke_directives [{ start := 0, stop := 9/500, word := ['h', 'i'] }] =
      [{ durCs := 1, word := ['h', 'i'] }] ∧
    round (((9 : ℚ)/500 - 0) * 100) = 2 ∧ (1 : ℤ) ≠ 2 := by
  refine ⟨?_, by norm_num [round_eq], by decide⟩
  rw [karaoke_directives_trunc]
  simp only [List.map_cons, List.map_nil]
  have h1 : (((9 : ℚ)/500) - 0) * 100 = 9/5 := by norm_num
  rw [h1, pyInt_eq_floor _ (by norm_num)]
  norm_num

/-! ## C3: encoder selection at 10-bit depth -/

/-- Claim C3: with bit depth 10 and at least one encoder of the HEVC
preference list available, `select_encoder` picks the first available
element of that list (on every platform), and in Scenario A
(`hevc_nvenc` and `libx264` available) it picks `hevc_nvenc` with
maxrate `1.5 *` and bufsize `2 *` the target bitrate. -/
theorem select_encoder_10bit_pref (avail : List String) (system : String)
    (k : Nat) (h : ∃ e ∈ hevc_pref, e ∈ avail) :
    (∃ e opts, select_encoder avail system 10 k = some (e, opts) ∧
      hevc_pref.find? (fun x => decide (x ∈ avail)) = some e) ∧
    select_encoder ["hevc_nvenc", "libx264"] system 10 k =
      some ("hevc_nvenc",
        ["-preset", "p4", "-b:v", kstr k,
         "-maxrate", kstr (3 * k / 2), "-bufsize", kstr (2 * k)]) := by
  constructor
  · by_cases h1 : "hevc_nvenc" ∈ avail
    · exact ⟨"hevc_nvenc", nvenc_opts k, by simp [select_encoder, h1],
        by simp [hevc_pref, h1]⟩
    · by_cases h2 : "hevc_amf" ∈ avail
      · exact ⟨"hevc_amf", ["-b:v", kstr k], by simp [select_encoder, h1, h2],
          by simp [hevc_pref, h1, h2]⟩
      · by_cases h3 : "hevc_qsv" ∈ avail
        · exact ⟨"hevc_qsv", ["-b:v", kstr k],
            by simp [select_encoder, h1, h2, h3],
            by simp [hevc_pref, h1, h2, h3]⟩
        · by_cases h4 : "hevc_videotoolbox" ∈ avail
          · exact ⟨"hevc_videotoolbox", ["-b:v", kstr k],
              by simp [select_encoder, h1, h2, h3, h4],
              by simp [hevc_pref, h1, h2, h3, h4]⟩
          · by_cases h5 : "libx265" ∈ avail
            · exact ⟨"libx265", ["-preset", "medium", "-b:v", kstr k],
                by simp [select_encoder, h1, h2, h3, h4, h5],
                by simp [hevc_pref, h1, h2, h3, h4, h5]⟩
            · exfalso
              rcases h with ⟨e, he, hee⟩
              simp [hevc_pref] at he
              rcases he with rfl | rfl | rfl | rfl | rfl <;> tauto
  · simp +decide [select_encoder, nvenc_opts]

/-- Witness for C3 at a concrete available-encoder set. -/
theorem select_encoder_10bit_pref_witness :
    (∃ e ∈ hevc_pref, e ∈ ["hevc_qsv", "libx264"]) ∧
    ((∃ e opts,
        select_encoder ["hevc_qsv", "libx264"] "Linux" 10 2000 =
          some (e, opts) ∧
        hevc_pref.find?
          (fun x => decide (x ∈ ["hevc_qsv", "libx264"])) = some e) ∧
      select_encoder ["hevc_nvenc", "libx264"] "Linux" 10 2000 =
        some ("hevc_nvenc",
          ["-preset", "p4", "-b:v", kstr 2000,
           "-maxrate", kstr (3 * 2000 / 2), "-bufsize", kstr (2 * 2000)])) :=
  ⟨by decide, select_encoder_10bit_pref ["hevc_qsv", "libx264"] "Linux" 2000
    (by decide)⟩

/-! ## C2: no-speech filtering -/

theorem extract_filter_mlx_eq (thr : ℚ) :
    ∀ raws : List MlxSeg,
      (extract_filter_mlx thr raws).1 =
        raws.filter (fun s => !decide (thr < s.no_speech_prob.getD 0)) ∧
      (extract_filter_mlx thr raws).2 =
        raws.countP (fun s => decide (thr < s.no_speech_prob.getD 0))
  | [] => ⟨rfl, rfl⟩
  | s :: raws => by
    have ih := extract_filter_mlx_eq thr raws
    by_cases h : thr < s.no_speech_prob.getD 0
    · simp [extract_filter_mlx, h, ih.1, ih.2, List.countP_cons,
        List.filter_cons]
    · simp [extract_filter_mlx, h, ih.1, ih.2, List.countP_cons,
        List.filter_cons]

theorem extract_filter_fw_eq (thr : ℚ) :
    ∀ raws : List FwSeg,
      (extract_filter_fw thr raws).1 =
        raws.filter (fun s => !decide (thr < s.no_speech_prob)) ∧
      (extract_filter_fw thr raws).2 =
        raws.countP (fun s => decide (thr < s.no_speech_prob))
  | [] => ⟨rfl, rfl⟩
  | s :: raws => by
    have ih := extract_filter_fw_eq thr raws
    by_cases h : thr < s.no_speech_prob
    · simp [extract_filter_fw, h, ih.1, ih.2, List.countP_cons,
        List.filter_cons]
    · simp [extract_filter_fw, h, ih.1, ih.2, List.countP_cons,
        List.filter_cons]

/-- Claim C2: for every threshold in `[0, 1]` and every raw segment
sequence of any backend, no retained segment's non-speech probability
exceeds the threshold; the retained list is exactly the in-order filter
of the raw list and the only other effect is the diagnostic count of the
dropped segments (the functions are total — no error path exists). -/
theorem extract_no_speech_filter (thr : ℚ) (h0 : 0 ≤ thr) (h1 : thr ≤ 1)
    (mlxRaw : List MlxSeg) (fwRaw : List FwSeg) :
    (∀ s ∈ (extract_filter_mlx thr mlxRaw).1,
      ¬ thr < s.no_speech_prob.getD 0) ∧
    (∀ s ∈ (extract_filter_fw thr fwRaw).1, ¬ thr < s.no_speech_prob) ∧
    (extract_filter_mlx thr mlxRaw).1 =
      mlxRaw.filter (fun s => !decide (thr < s.no_speech_prob.getD 0)) ∧
    (extract_filter_fw thr fwRaw).1 =
      fwRaw.filter (fun s => !decide (thr < s.no_speech_prob)) ∧
    (extract_filter_mlx thr mlxRaw).2 =
      mlxRaw.countP (fun s => decide (thr < s.no_speech_prob.getD 0)) ∧
    (extract_filter_fw thr fwRaw).2 =
      fwRaw.countP (fun s => decide (thr < s.no_speech_prob)) := by
  have hm := extract_filter_mlx_eq thr mlxRaw
  have hw := extract_filter_fw_eq thr fwRaw
  refine ⟨?_, ?_, hm.1, hw.1, hm.2, hw.2⟩
  · intro s hs
    rw [hm.1] at hs
    simpa using (List.mem_filter.mp hs).2
  · intro s hs
    rw [hw.1] at hs
    simpa using (List.mem_filter.mp hs).2

/-- Witness for C2 at threshold 1 and concrete raw segments. -/
theorem extract_no_speech_filter_witness :
    (0 : ℚ) ≤ 1 ∧ (1 : ℚ) ≤ 1 ∧
    ((∀ s ∈ (extract_filter_mlx 1
        ([⟨0, 1, ['a'], some 2⟩, ⟨1, 2, ['b'], none⟩] : List MlxSeg)).1,
      ¬ (1 : ℚ) < s.no_speech_prob.getD 0) ∧
    (∀ s ∈ (extract_filter_fw 1
        ([⟨0, 1, ['a'], 0, []⟩] : List FwSeg)).1,
      ¬ (1 : ℚ) < s.no_speech_prob) ∧
    (extract_filter_mlx 1
        ([⟨0, 1, ['a'], some 2⟩, ⟨1, 2, ['b'], none⟩] : List MlxSeg)).1 =
      ([⟨0, 1, ['a'], some 2⟩, ⟨1, 2, ['b'], none⟩] : List MlxSeg).filter
        (fun s => !decide ((1 : ℚ) < s.no_speech_prob.getD 0)) ∧
    (extract_filter_fw 1 ([⟨0, 1, ['a'], 0, []⟩] : List FwSeg)).1 =
      ([⟨0, 1, ['a'], 0, []⟩] : List FwSeg).filter
        (fun s => !decide ((1 : ℚ) < s.no_speech_prob)) ∧
    (extract_filter_mlx 1
        ([⟨0, 1, ['a'], some 2⟩, ⟨1, 2, ['b'], none⟩] : List MlxSeg)).2 =
      ([⟨0, 1, ['a'], some 2⟩, ⟨1, 2, ['b'], none⟩] : List MlxSeg).countP
        (fun s => decide ((1 : ℚ) < s.no_speech_prob.getD 0)) ∧
    (extract_filter_fw 1 ([⟨0, 1, ['a'], 0, []⟩] : List FwSeg)).2 =
      ([⟨0, 1, ['a'], 0, []⟩] : List FwSeg).countP
        (fun s => decide ((1 : ℚ) < s.no_speech_prob))) :=
  ⟨by decide, by decide,
    extract_no_speech_filter 1 (by decide) (by decide) _ _⟩

/-! ## Translation-stage helpers -/

theorem chunkGo_eq {α : Type} (n : Nat) :
    ∀ (l : List α) (k : Nat) (acc : List α),
      chunkGo n k acc l = (acc.reverse ++ l.take k) :: chunkList n (l.drop k)
  | [], k, acc => by simp [chunkGo, chunkList]
  | a :: l, 0, acc => by simp [chunkGo, chunkList]
  | a :: l, k + 1, acc => by
    rw [show chunkGo n (k + 1) acc (a :: l) = chunkGo n k (a :: acc) l
      from rfl, chunkGo_eq n l k (a :: acc)]
    simp

theorem chunkList_cons {α : Type} (n : Nat) (a : α) (l : List α) :
    chunkList n (a :: l) =
      (a :: l.take (n - 1)) :: chunkList n (l.drop (n - 1)) := by
  rw [show chunkList n (a :: l) = chunkGo n (n - 1) [a] l from rfl,
    chunkGo_eq]
  simp

theorem chunkList_flatten {α : Type} (n : Nat) :
    ∀ l : List α, (chunkList n l).flatten = l
  | [] => rfl
  | a :: l => by
    rw [chunkList_cons, List.flatten_cons,
      chunkList_flatten n (l.drop (n - 1))]
    simp
termination_by l => l.length
decreasing_by
  have := List.length_drop (n - 1) l
  simp only [List.length_cons]
  omega

theorem flatten_map_length_eq {f : List PyStr → List PyStr}
    (hf : ∀ c, (f c).length = c.length) :
    ∀ cs : List (List PyStr), ((cs.map f).flatten).length = cs.flatten.length
  | [] => rfl
  | c :: cs => by simp [flatten_map_length_eq hf cs, hf c]

theorem translate_chunk_length (bo : List PyStr → Option (List PyStr))
    (so : PyStr → Option PyStr) (c : List PyStr) :
    (translate_chunk bo so c).length = c.length := by
  unfold translate_chunk
  rcases h : bo c with _ | r
  · simp
  · by_cases hc : r ≠ [] ∧ r.length = c.length
    · simp [hc, hc.2]
    · simp [hc]

theorem flatten_chunk_getD (n : Nat) (hn : 0 < n)
    (f : List PyStr → List PyStr) (hf : ∀ c, (f c).length = c.length) :
    ∀ (l : List PyStr) (i : Nat), i < l.length →
      i % n < ((chunkList n l).getD (i / n) []).length ∧
      ((chunkList n l).map f).flatten.getD i [] =
        (f ((chunkList n l).getD (i / n) [])).getD (i % n) []
  | [], i, hi => absurd hi (by simp)
  | a :: l, i, hi => by
    rw [chunkList_cons]
    have hlen0 : (a :: l.take (n - 1)).length = min (n - 1) l.length + 1 := by
      simp
    by_cases hin : i < n
    · have hdiv : i / n = 0 := Nat.div_eq_of_lt hin
      have hmod : i % n = i := Nat.mod_eq_of_lt hin
      have hic : i < (a :: l.take (n - 1)).length := by
        rw [hlen0]
        simp only [List.length_cons] at hi
        omega
      have hfc : i < (f (a :: l.take (n - 1))).length := by
        rw [hf]; exact hic
      refine ⟨by rw [hdiv, hmod]; exact hic, ?_⟩
      rw [List.map_cons, List.flatten_cons, hdiv, hmod,
        List.getD_append _ _ _ _ hfc]
      rfl
    · have hnle : n ≤ i := Nat.le_of_not_lt hin
      have hdiv : i / n = (i - n) / n + 1 := Nat.div_eq_sub_div hn hnle
      have hmod : i % n = (i - n) % n := Nat.mod_eq_sub_mod hnle
      have hlenc : (a :: l.take (n - 1)).length = n := by
        rw [hlen0]
        simp only [List.length_cons] at hi
        omega
      have hrec := flatten_chunk_getD n hn f hf (l.drop (n - 1)) (i - n)
        (by
          rw [List.length_drop]
          simp only [List.length_cons] at hi
          omega)
      refine ⟨?_, ?_⟩
      · rw [hdiv, hmod]
        exact hrec.1
      · rw [List.map_cons, List.flatten_cons, hdiv, hmod]
        have hflen : (f (a :: l.take (n - 1))).length = n := by
          rw [hf]; exact hlenc
        rw [List.getD_append_right _ _ _ _ (by rw [hflen]; exact hnle),
          hflen]
        exact hrec.2
termination_by l => l.length
decreasing_by
  have := List.length_drop (n - 1) l
  simp only [List.length_cons]
  omega

theorem chunk_getD_eq_getD (n : Nat) (hn : 0 < n) (l : List PyStr)
    (i : Nat) (hi : i < l.length) :
    ((chunkList n l).getD (i / n) []).getD (i % n) [] = l.getD i [] := by
  have h := (flatten_chunk_getD n hn id (fun _ => rfl) l i hi).2
  rw [List.map_id, chunkList_flatten, id_eq] at h
  exact h.symm

theorem map_pyStrip_getD (segTexts : List PyStr) (i : Nat)
    (hi : i < segTexts.length) :
    (segTexts.map pyStrip).getD i [] = pyStrip (segTexts.getD i []) := by
  simp [List.getD_eq_getElem?_getD, List.getElem?_map,
    List.getElem?_eq_getElem hi]

/-! ## C1: translation preserves length and order -/

/-- Claim C1: for every batch and single-request outcome pattern, the
translation stage returns exactly one string per input text, and the
string at position `i` is the one produced for input `i`: it is the
entry at `i`'s offset within the result of `i`'s own chunk, and that
chunk holds the (entry-stripped) `i`-th input text at that offset. -/
theorem translate_subtitles_length_order
    (bo : List PyStr → Option (List PyStr)) (so : PyStr → Option PyStr)
    (segTexts : List PyStr) (n : Nat) (hn : 0 < n) :
    (translate_subtitles bo so segTexts n).length = segTexts.length ∧
    ∀ i, i < segTexts.length →
      (translate_subtitles bo so segTexts n).getD i [] =
        (translate_chunk bo so
          ((chunkList n (segTexts.map pyStrip)).getD (i / n) [])).getD
          (i % n) [] ∧
      ((chunkList n (segTexts.map pyStrip)).getD (i / n) []).getD
          (i % n) [] = pyStrip (segTexts.getD i []) := by
  unfold translate_subtitles translate_texts
  constructor
  · rw [flatten_map_length_eq (translate_chunk_length bo so),
      chunkList_flatten, List.length_map]
  · intro i hi
    have hi' : i < (segTexts.map pyStrip).length := by
      rw [List.length_map]; exact hi
    refine ⟨(flatten_chunk_getD n hn _ (translate_chunk_length bo so)
      (segTexts.map pyStrip) i hi').2, ?_⟩
    rw [chunk_getD_eq_getD n hn _ i hi', map_pyStrip_getD segTexts i hi]

/-- Witness for C1 at a concrete input and oracles. -/
theorem translate_subtitles_length_order_witness :
    0 < 2 ∧
    ((translate_subtitles (fun c => some c) (fun _ => none)
        [['a'], ['b'], ['c']] 2).length =
      ([['a'], ['b'], ['c']] : List PyStr).length ∧
    ∀ i, i < ([['a'], ['b'], ['c']] : List PyStr).length →
      (translate_subtitles (fun c => some c) (fun _ => none)
          [['a'], ['b'], ['c']] 2).getD i [] =
        (translate_chunk (fun c => some c) (fun _ => none)
          ((chunkList 2 (([['a'], ['b'], ['c']] : List PyStr).map
            pyStrip)).getD (i / 2) [])).getD (i % 2) [] ∧
      ((chunkList 2 (([['a'], ['b'], ['c']] : List PyStr).map
          pyStrip)).getD (i / 2) []).getD (i % 2) [] =
        pyStrip (([['a'], ['b'], ['c']] : List PyStr).getD i [])) :=
  ⟨by decide, translate_subtitles_length_order (fun c => some c)
    (fun _ => none) [['a'], ['b'], ['c']] 2 (by decide)⟩

/-! ## C9: failed items fall back to the source text -/

theorem translate_single_none (so : PyStr → Option PyStr) (t : PyStr)
    (h : so t = none) : translate_single so t = t := by
  unfold translate_single
  split
  · rfl
  · simp [h]

theorem map_getD_lt (g : PyStr → PyStr) (l : List PyStr) (i : Nat)
    (hi : i < l.length) : (l.map g).getD i [] = g (l.getD i []) := by
  simp [List.getD_eq_getElem?_getD, List.getElem?_map,
    List.getElem?_eq_getElem hi]

/-- Claim C9: when the batch request of the chunk holding input `i`
fails (or its result is unusable) and the individual request for that
text fails too, the output at position `i` is the untranslated source
line exactly as submitted (the entry-stripped `i`-th input text); the
stage returns normally — every failure is absorbed, never surfaced. -/
theorem translate_failed_item_unchanged
    (bo : List PyStr → Option (List PyStr)) (so : PyStr → Option PyStr)
    (segTexts : List PyStr) (n : Nat) (hn : 0 < n) (i : Nat)
    (hi : i < segTexts.length)
    (hb : ∀ r, bo ((chunkList n (segTexts.map pyStrip)).getD (i / n) []) =
        some r →
      ¬(r ≠ [] ∧ r.length =
        ((chunkList n (segTexts.map pyStrip)).getD (i / n) []).length))
    (hs : so (pyStrip (segTexts.getD i [])) = none) :
    (translate_subtitles bo so segTexts n).getD i [] =
      pyStrip (segTexts.getD i []) := by
  have hi' : i < (segTexts.map pyStrip).length := by
    rw [List.length_map]; exact hi
  have hmain := flatten_chunk_getD n hn (translate_chunk bo so)
    (translate_chunk_length bo so) (segTexts.map pyStrip) i hi'
  have hgd : ((chunkList n (segTexts.map pyStrip)).getD (i / n) []).getD
      (i % n) [] = pyStrip (segTexts.getD i []) := by
    rw [chunk_getD_eq_getD n hn _ i hi', map_pyStrip_getD segTexts i hi]
  have hchunk : translate_chunk bo so
      ((chunkList n (segTexts.map pyStrip)).getD (i / n) []) =
      ((chunkList n (segTexts.map pyStrip)).getD (i / n) []).map
        (translate_single so) := by
    unfold translate_chunk
    rcases h : bo ((chunkList n (segTexts.map pyStrip)).getD (i / n) [])
      with _ | r
    · rfl
    · exact if_neg (hb r h)
  unfold translate_subtitles translate_texts
  rw [hmain.2, hchunk, map_getD_lt _ _ _ hmain.1, hgd,
    translate_single_none so _ hs]

/-- Witness for C9: total failure of both endpoints leaves item 1
untouched. -/
theorem translate_failed_item_unchanged_witness :
    0 < 2 ∧ 1 < ([['a'], ['b']] : List PyStr).length ∧
    (translate_subtitles (fun _ => none) (fun _ => none)
        [['a'], ['b']] 2).getD 1 [] =
      pyStrip (([['a'], ['b']] : List PyStr).getD 1 []) :=
  ⟨by decide, by decide,
    translate_failed_item_unchanged (fun _ => none) (fun _ => none)
      [['a'], ['b']] 2 (by decide) 1 (by decide)
      (fun r hr => absurd hr (by simp)) rfl⟩

/-! ## C7: sleeps between batches -/

/-- Claim C7 (amended): the 0.2 s sleep closes every loop iteration —
including successful batch calls — so a run consisting solely of
successful batch requests produces exactly the events batch, sleep 0.2,
batch, sleep 0.2, …: one fixed delay between consecutive batch calls
and no per-item delays. -/
theorem translate_trace_all_success
    (bo : List PyStr → Option (List PyStr)) (segTexts : List PyStr)
    (n : Nat)
    (h : ∀ c ∈ chunkList n (segTexts.map pyStrip), batchSucceeds bo c) :
    translate_trace bo segTexts n =
      ((chunkList n (segTexts.map pyStrip)).map
        (fun c => [TEvent.batchCall c, TEvent.sleep 20])).flatten := by
  unfold translate_trace
  congr 1
  apply List.map_congr_left
  intro c hc
  obtain ⟨r, hr, hner, hlen⟩ := h c hc
  simp [chunkTrace, hr, hner, hlen]

/-- Witness for C7 at a concrete always-successful oracle. -/
theorem translate_trace_all_success_witness :
    (∀ c ∈ chunkList 1 (([['a'], ['b']] : List PyStr).map pyStrip),
      batchSucceeds (fun c => some c) c) ∧
    translate_trace (fun c => some c) [['a'], ['b']] 1 =
      ((chunkList 1 (([['a'], ['b']] : List PyStr).map pyStrip)).map
        (fun c => [TEvent.batchCall c, TEvent.sleep 20])).flatten := by
  have hch : chunkList 1 (([['a'], ['b']] : List PyStr).map pyStrip) =
      [[['a']], [['b']]] := by decide
  have hall : ∀ c ∈ chunkList 1 (([['a'], ['b']] : List PyStr).map pyStrip),
      batchSucceeds (fun c : List PyStr => some c) c := by
    rw [hch]
    intro c hc
    rcases List.mem_cons.mp hc with rfl | hc
    · exact ⟨_, rfl, by decide, rfl⟩
    · rcases List.mem_cons.mp hc with rfl | hc
      · exact ⟨_, rfl, by decide, rfl⟩
      · cases hc
  exact ⟨hall, translate_trace_all_success (fun c => some c)
    [['a'], ['b']] 1 hall⟩

/-- Claim C7 counterexample: a run of two chunks whose batch requests
both succeed still sleeps 0.2 s right after the first batch — a delay
strictly between two consecutive successful batch calls, which the
claim says cannot happen. -/
theorem translate_sleep_between_batches_counterexample :
    translate_trace (fun c => some c) [['a'], ['b']] 1 =
      [TEvent.batchCall [['a']], TEvent.sleep 20,
       TEvent.batchCall [['b']], TEvent.sleep 20] ∧
    sleepBetweenBatches
      (translate_trace (fun c => some c) [['a'], ['b']] 1) = true := by
  decide

/-! ## C6: join and split separators -/

theorem splitSep3Aux_cons_ne (acc : PyStr) (c : Char) (l : PyStr)
    (hc : c ≠ '#') :
    splitSep3Aux acc (c :: l) = splitSep3Aux (c :: acc) l := by
  match l with
  | [] => rfl
  | [c2] => rfl
  | c2 :: c3 :: rest => simp [splitSep3Aux, hc]

theorem splitSep3Aux_append (b : PyStr) :
    ∀ (a acc : PyStr), '#' ∉ a →
      splitSep3Aux acc (a ++ '#' :: '#' :: '#' :: b) =
        (acc.reverse ++ a) :: splitSep3Aux [] b
  | [], acc, _ => by simp [splitSep3Aux]
  | c :: a, acc, ha => by
    have hc : c ≠ '#' := fun h => ha (h ▸ List.mem_cons_self c a)
    have ha' : '#' ∉ a := fun h => ha (List.mem_cons_of_mem c h)
    rw [List.cons_append, splitSep3Aux_cons_ne _ _ _ hc,
      splitSep3Aux_append b a (c :: acc) ha']
    simp

/-- Claim C6 (amended): the endpoint response is split on `###`, the
three-hash core of the join separator, not on the identical token: the
join separator is newline-###-newline, and the splitter consumes exactly
the three hashes, leaving the surrounding newlines on the fragments. -/
theorem translate_batch_separator (o : PyStr → Option PyStr)
    (texts : List PyStr) (resp : PyStr) (hne : texts ≠ [])
    (ho : o (List.intercalate sepJoin texts) = some resp) :
    translate_batch o texts = some (splitSep3 resp) ∧
    sepJoin = nl :: '#' :: '#' :: '#' :: [nl] ∧
    (∀ a b : PyStr, '#' ∉ a →
      splitSep3 (a ++ '#' :: '#' :: '#' :: b) = a :: splitSep3 b) := by
  refine ⟨?_, rfl, ?_⟩
  · unfold translate_batch
    rw [if_neg hne, ho]
  · intro a b ha
    unfold splitSep3
    rw [splitSep3Aux_append b a [] ha]
    simp

/-- Witness for C6 at an echoing endpoint and one text. -/
theorem translate_batch_separator_witness :
    ([['a']] : List PyStr) ≠ [] ∧
    (translate_batch (fun s => some s) [['a']] =
      some (splitSep3 (List.intercalate sepJoin [['a']])) ∧
    sepJoin = nl :: '#' :: '#' :: '#' :: [nl] ∧
    (∀ a b : PyStr, '#' ∉ a →
      splitSep3 (a ++ '#' :: '#' :: '#' :: b) = a :: splitSep3 b)) :=
  ⟨by decide, translate_batch_separator (fun s => some s) [['a']]
    (List.intercalate sepJoin [['a']]) (by decide) rfl⟩

/-- Claim C6 counterexample: with an echoing endpoint the response is
exactly the joined request, yet the split does not return the original
texts — the newline halves of the join separator stay glued to the
fragments, so the split token differs from the join token. -/
theorem translate_batch_separator_counterexample :
    translate_batch (fun s => some s) [['a'], ['b']] =
      some [['a', nl], [nl, 'b']] ∧
    ([['a', nl], [nl, 'b']] : List PyStr) ≠ [['a'], ['b']] := by
  decide

/-! ## C8 helpers: lines -/

theorem splitNl_ne_nil : ∀ s : PyStr, splitNl s ≠ []
  | [] => by simp [splitNl]
  | c :: rest => by
    unfold splitNl
    by_cases h : c = nl
    · simp [h]
    · simp [h]

theorem splitNl_append_no_nl :
    ∀ (a rest : PyStr), nl ∉ a →
      splitNl (a ++ nl :: rest) = a :: splitNl rest
  | [], rest, _ => by simp [splitNl]
  | c :: a, rest, ha => by
    have hc : c ≠ nl := fun h => ha (h ▸ List.mem_cons_self c a)
    have ha' : nl ∉ a := fun h => ha (List.mem_cons_of_mem c h)
    have ih := splitNl_append_no_nl a rest ha'
    rw [List.cons_append]
    simp only [splitNl]
    rw [if_neg hc, ih]
    rfl

theorem joinNl_splitNl : ∀ s : PyStr, joinNl (splitNl s) = s
  | [] => rfl
  | c :: rest => by
    have ih := joinNl_splitNl rest
    unfold splitNl
    by_cases h : c = nl
    · rw [if_pos h]
      cases hr : splitNl rest with
      | nil => exact absurd hr (splitNl_ne_nil rest)
      | cons r rs =>
        rw [hr] at ih
        simp [joinNl, h, ← ih]
    · rw [if_neg h]
      cases hr : splitNl rest with
      | nil => exact absurd hr (splitNl_ne_nil rest)
      | cons r rs =>
        rw [hr] at ih
        cases rs with
        | nil => simp_all [joinNl]
        | cons r2 rs2 => simp_all [joinNl]

/-! ## C8 helpers: double newlines and string ends -/

theorem hasDblNl_cons_cons (c c2 : Char) (rest : PyStr) :
    hasDblNl (c :: c2 :: rest) =
      ((decide (c = nl) && decide (c2 = nl)) || hasDblNl (c2 :: rest)) :=
  rfl

theorem hasDblNl_append_no_nl :
    ∀ (a b : PyStr), nl ∉ a → hasDblNl (a ++ b) = hasDblNl b
  | [], b, _ => rfl
  | [c], b, ha => by
    have hc : c ≠ nl := fun h => ha (by simp [h])
    cases b with
    | nil => rfl
    | cons d b' =>
      rw [List.singleton_append, hasDblNl_cons_cons]
      simp [hc]
  | c :: c2 :: a, b, ha => by
    have hc : c ≠ nl := fun h => ha (by simp [h])
    have ha' : nl ∉ c2 :: a := fun h => ha (List.mem_cons_of_mem c h)
    have ih := hasDblNl_append_no_nl (c2 :: a) b ha'
    rw [show (c :: c2 :: a) ++ b = c :: c2 :: (a ++ b) from rfl,
      hasDblNl_cons_cons]
    simp only [hc, decide_eq_true_eq, decide_eq_false_iff_not,
      Bool.false_and, Bool.false_or, if_false]
    rw [show c2 :: (a ++ b) = (c2 :: a) ++ b from rfl, ih]
    simp [hc]

theorem hasDblNl_tail (c : Char) (s : PyStr) (h : hasDblNl (c :: s) = false) :
    hasDblNl s = false := by
  cases s with
  | nil => rfl
  | cons c2 s2 =>
    rw [hasDblNl_cons_cons] at h
    exact (Bool.or_eq_false_iff.mp h).2

theorem getLastD_irrel {α : Type} (s : List α) (hs : s ≠ []) (d1 d2 : α) :
    s.getLastD d1 = s.getLastD d2 := by
  rw [List.getLastD_eq_getLast?, List.getLastD_eq_getLast?]
  cases h : s.getLast? with
  | none => exact absurd (List.getLast?_eq_none_iff.mp h) hs
  | some x => rfl

theorem getLastD_tail (c : Char) (s : PyStr) (hs : s ≠ []) (d : Char) :
    (c :: s).getLastD d = s.getLastD d := by
  rw [List.getLastD_cons]
  exact getLastD_irrel s hs c d

theorem getLastD_mem {α : Type} (l : List α) (d : α) (h : l ≠ []) :
    l.getLastD d ∈ l := by
  cases l with
  | nil => exact absurd rfl h
  | cons a l =>
    rw [List.getLastD_cons]
    exact List.getLastD_mem_cons l a

theorem getLastD_append_right {α : Type} :
    ∀ (A B : List α) (d : α), B ≠ [] → (A ++ B).getLastD d = B.getLastD d
  | [], B, d, _ => rfl
  | a :: A, B, d, hB => by
    rw [List.cons_append, List.getLastD_cons,
      getLastD_append_right A B a hB]
    exact getLastD_irrel B hB a d

theorem headI_mem {α : Type} [Inhabited α] (l : List α) (h : l ≠ []) :
    l.headI ∈ l := by
  cases l with
  | nil => exact absurd rfl h
  | cons a l => exact List.mem_cons_self a l

theorem headI_append {α : Type} [Inhabited α] (s t : List α) (hs : s ≠ []) :
    (s ++ t).headI = s.headI := by
  cases s with
  | nil => exact absurd rfl hs
  | cons a s => rfl

theorem getLastD_ne_of_not_mem (a : PyStr) (c d : Char) (ha : c ∉ a)
    (hd : d ≠ c) : a.getLastD d ≠ c := by
  cases a with
  | nil => exact hd
  | cons x l =>
    intro h
    exact ha (h ▸ getLastD_mem (x :: l) d (by simp))

/-! ## C8 helpers: the blank-line splitter -/

theorem sbgo_normal_cons (acc : PyStr) (c : Char) (cs : PyStr) :
    splitBlankGo (SBState.normal acc) (c :: cs) =
      if c = nl then splitBlankGo (SBState.seenNl acc) cs
      else splitBlankGo (SBState.normal (c :: acc)) cs := rfl

theorem sbgo_seenNl_cons (acc : PyStr) (c : Char) (cs : PyStr) :
    splitBlankGo (SBState.seenNl acc) (c :: cs) =
      if c = nl then acc.reverse :: splitBlankGo SBState.skipping cs
      else splitBlankGo (SBState.normal (c :: nl :: acc)) cs := rfl

theorem sbgo_skipping_cons (c : Char) (cs : PyStr) :
    splitBlankGo SBState.skipping (c :: cs) =
      if c = nl then splitBlankGo SBState.skipping cs
      else splitBlankGo (SBState.normal [c]) cs := rfl

theorem splitBlankGo_no_break :
    ∀ (s acc : PyStr), hasDblNl s = false → s.getLastD 'x' ≠ nl →
      splitBlankGo (SBState.normal acc) s = [acc.reverse ++ s]
  | [], acc, _, _ => by simp [splitBlankGo]
  | c :: s, acc, h1, h2 => by
    by_cases hc : c = nl
    · subst hc
      cases s with
      | nil => exact absurd rfl h2
      | cons c2 s2 =>
        have hc2 : c2 ≠ nl := by
          rw [hasDblNl_cons_cons] at h1
          have := (Bool.or_eq_false_iff.mp h1).1
          simpa using this
        have h1' : hasDblNl (c2 :: s2) = false := hasDblNl_tail _ _ h1
        have h2' : (c2 :: s2).getLastD 'x' ≠ nl := by
          rwa [getLastD_tail nl (c2 :: s2) (by simp) 'x'] at h2
        have ihh := splitBlankGo_no_break (c2 :: s2) (nl :: acc) h1' h2'
        rw [sbgo_normal_cons, if_neg hc2] at ihh
        rw [sbgo_normal_cons, if_pos rfl, sbgo_seenNl_cons, if_neg hc2, ihh]
        simp
    · have h1' := hasDblNl_tail c s h1
      have h2' : s.getLastD 'x' ≠ nl := by
        cases s with
        | nil => decide
        | cons d s' => rwa [getLastD_tail c (d :: s') (by simp) 'x'] at h2
      have ihh := splitBlankGo_no_break s (c :: acc) h1' h2'
      rw [sbgo_normal_cons, if_neg hc, ihh]
      simp

theorem splitBlankGo_break :
    ∀ (s acc rest : PyStr), hasDblNl s = false → s.getLastD 'x' ≠ nl →
      splitBlankGo (SBState.normal acc) (s ++ nl :: nl :: rest) =
        (acc.reverse ++ s) :: splitBlankGo SBState.skipping rest
  | [], acc, rest, _, _ => by
    rw [List.nil_append, sbgo_normal_cons, if_pos rfl, sbgo_seenNl_cons,
      if_pos rfl]
    simp
  | c :: s, acc, rest, h1, h2 => by
    by_cases hc : c = nl
    · subst hc
      cases s with
      | nil => exact absurd rfl h2
      | cons c2 s2 =>
        have hc2 : c2 ≠ nl := by
          rw [hasDblNl_cons_cons] at h1
          have := (Bool.or_eq_false_iff.mp h1).1
          simpa using this
        have h1' : hasDblNl (c2 :: s2) = false := hasDblNl_tail _ _ h1
        have h2' : (c2 :: s2).getLastD 'x' ≠ nl := by
          rwa [getLastD_tail nl (c2 :: s2) (by simp) 'x'] at h2
        have ihh := splitBlankGo_break (c2 :: s2) (nl :: acc) rest h1' h2'
        rw [List.cons_append, sbgo_normal_cons, if_neg hc2] at ihh
        rw [List.cons_append, sbgo_normal_cons, if_pos rfl,
          List.cons_append, sbgo_seenNl_cons, if_neg hc2, ihh]
        simp
    · have h1' := hasDblNl_tail c s h1
      have h2' : s.getLastD 'x' ≠ nl := by
        cases s with
        | nil => decide
        | cons d s' => rwa [getLastD_tail c (d :: s') (by simp) 'x'] at h2
      have ihh := splitBlankGo_break s (c :: acc) rest h1' h2'
      rw [List.cons_append, sbgo_normal_cons, if_neg hc, ihh]
      simp

theorem splitBlankGo_skipping_resume (c : Char) (cs : PyStr) (hc : c ≠ nl) :
    splitBlankGo SBState.skipping (c :: cs) = splitBlank (c :: cs) := by
  unfold splitBlank
  rw [sbgo_skipping_cons, if_neg hc, sbgo_normal_cons, if_neg hc]

/-! ## C8 helpers: joined blocks -/

theorem joinBlank_cons_cons (s s2 : PyStr) (l : List PyStr) :
    joinBlank (s :: s2 :: l) = s ++ nl :: nl :: joinBlank (s2 :: l) := rfl

theorem joinBlank_ne_nil :
    ∀ (l : List PyStr), l ≠ [] → (∀ s ∈ l, s ≠ []) → joinBlank l ≠ []
  | [s], _, h => by simpa [joinBlank] using h s (by simp)
  | s :: s2 :: l, _, h => by
    rw [joinBlank_cons_cons]
    intro hh
    exact h s (by simp) (List.append_eq_nil.mp hh).1

theorem joinBlank_headI (l : List PyStr) (s : PyStr) (hs : s ≠ []) :
    (joinBlank (s :: l)).headI = s.headI := by
  cases l with
  | nil => rfl
  | cons s2 l => rw [joinBlank_cons_cons]; exact headI_append s _ hs

theorem joinBlank_getLastD :
    ∀ (l : List PyStr), l ≠ [] → (∀ s ∈ l, s ≠ []) →
      (joinBlank l).getLastD 'x' = (l.getLastD []).getLastD 'x'
  | [s], _, _ => rfl
  | s :: s2 :: l, _, h => by
    have hall : ∀ t ∈ s2 :: l, t ≠ [] :=
      fun t ht => h t (List.mem_cons_of_mem s ht)
    have hrec := joinBlank_getLastD (s2 :: l) (by simp) hall
    have hjne : joinBlank (s2 :: l) ≠ [] :=
      joinBlank_ne_nil (s2 :: l) (by simp) hall
    rw [joinBlank_cons_cons, getLastD_append_right s _ 'x' (by simp),
      getLastD_tail nl _ (by simp) 'x', getLastD_tail nl _ hjne 'x', hrec,
      List.getLastD_cons, List.getLastD_cons, List.getLastD_cons]

theorem write_srt_eq_joinBlank :
    ∀ blocks : List SubtitleRecord, blocks ≠ [] →
      write_srt blocks = joinBlank (blocks.map blockStr) ++ [nl, nl]
  | [b], _ => by simp [write_srt, joinBlank]
  | b :: b2 :: blocks, _ => by
    have ih := write_srt_eq_joinBlank (b2 :: blocks) (by simp)
    unfold write_srt at ih ⊢
    rw [List.map_cons, List.flatten_cons, ih]
    simp only [List.map_cons]
    rw [joinBlank_cons_cons]
    simp

theorem pyStrip_concat_double_nl (X : PyStr) (hne : X ≠ [])
    (h1 : isPySpace X.headI = false)
    (h2 : isPySpace (X.getLastD 'x') = false) :
    pyStrip (X ++ [nl, nl]) = X := by
  unfold pyStrip
  have hd : (X ++ [nl, nl]).dropWhile isPySpace = X ++ [nl, nl] := by
    cases X with
    | nil => exact absurd rfl hne
    | cons c X' =>
      rw [List.cons_append, List.dropWhile_cons, if_neg (by simp_all)]
  have hcat : List.rdropWhile isPySpace (X ++ [nl, nl]) =
      List.rdropWhile isPySpace X := by
    rw [show X ++ [nl, nl] = (X ++ [nl]) ++ [nl] by
        rw [List.append_assoc]; rfl,
      List.rdropWhile_concat_pos isPySpace (X ++ [nl]) nl (by decide),
      List.rdropWhile_concat_pos isPySpace X nl (by decide)]
  rw [hd, hcat, List.rdropWhile_eq_self_iff.mpr]
  intro hl
  have hx : X.getLast hl = X.getLastD 'x' := by
    rw [List.getLastD_eq_getLast?, List.getLast?_eq_getLast X hl]
    rfl
  rw [hx, h2]
  simp

theorem splitBlank_joinBlank :
    ∀ l : List PyStr, l ≠ [] →
      (∀ s ∈ l, s ≠ [] ∧ hasDblNl s = false ∧ s.headI ≠ nl ∧
        s.getLastD 'x' ≠ nl) →
      splitBlank (joinBlank l) = l
  | [s], _, h => by
    obtain ⟨hs1, hs2, _, hs4⟩ := h s (by simp)
    show splitBlankGo (SBState.normal []) (joinBlank [s]) = [s]
    rw [show joinBlank [s] = s from rfl, splitBlankGo_no_break s [] hs2 hs4]
    simp
  | s :: s2 :: l, _, h => by
    obtain ⟨hs1, hs2, _, hs4⟩ := h s (by simp)
    have hall : ∀ t ∈ s2 :: l, t ≠ [] ∧ hasDblNl t = false ∧
        t.headI ≠ nl ∧ t.getLastD 'x' ≠ nl :=
      fun t ht => h t (List.mem_cons_of_mem s ht)
    have ih := splitBlank_joinBlank (s2 :: l) (by simp) hall
    have hjne : joinBlank (s2 :: l) ≠ [] :=
      joinBlank_ne_nil (s2 :: l) (by simp) (fun t ht => (hall t ht).1)
    have hjhead : (joinBlank (s2 :: l)).headI ≠ nl := by
      rw [joinBlank_headI l s2 (hall s2 (by simp)).1]
      exact (hall s2 (by simp)).2.2.1
    unfold splitBlank
    rw [joinBlank_cons_cons,
      splitBlankGo_break s [] (joinBlank (s2 :: l)) hs2 hs4]
    cases hj : joinBlank (s2 :: l) with
    | nil => exact absurd hj hjne
    | cons d tail =>
      have hd : d ≠ nl := by rw [hj] at hjhead; exact hjhead
      rw [splitBlankGo_skipping_resume d tail hd, ← hj, ih]
      simp

theorem blockStr_wf (b : SubtitleRecord) (h : wfRecord b) :
    blockStr b ≠ [] ∧ hasDblNl (blockStr b) = false ∧
    (blockStr b).headI = b.index.headI ∧
    (blockStr b).getLastD 'x' = b.text.getLastD 'x' := by
  obtain ⟨hi1, hi2, hi3, ht1, ht2, hx1, hx2, hx3, hx4⟩ := h
  refine ⟨?_, ?_, ?_, ?_⟩
  · unfold blockStr
    intro hc
    exact hi1 (List.append_eq_nil.mp hc).1
  · unfold blockStr
    rw [hasDblNl_append_no_nl b.index _ hi2]
    cases hts : b.timestamp with
    | nil => exact absurd hts ht1
    | cons t ts' =>
      have htn : t ≠ nl := by
        rw [hts] at ht2
        exact fun he => ht2 (he ▸ List.mem_cons_self t ts')
      have hts2 : nl ∉ t :: ts' := hts ▸ ht2
      rw [show (t :: ts') ++ (nl :: b.text) = t :: (ts' ++ (nl :: b.text))
        from rfl, hasDblNl_cons_cons]
      rw [show t :: (ts' ++ (nl :: b.text)) = (t :: ts') ++ (nl :: b.text)
        from rfl, hasDblNl_append_no_nl (t :: ts') _ hts2]
      cases htx : b.text with
      | nil => exact absurd htx hx1
      | cons u tx' =>
        have hun : u ≠ nl := by
          rw [htx] at hx3
          exact hx3
        rw [hasDblNl_cons_cons]
        rw [htx] at hx2
        simp [htn, hun, hx2]
  · unfold blockStr
    exact headI_append b.index _ hi1
  · unfold blockStr
    rw [getLastD_append_right b.index _ 'x' (by simp),
      getLastD_tail nl _ (by simp) 'x',
      getLastD_append_right b.timestamp _ 'x' (by simp),
      getLastD_tail nl b.text hx1 'x']

theorem parse_block_some (b : SubtitleRecord) (h : wfRecord b) :
    (let lines := splitNl (blockStr b)
     if 3 ≤ lines.length then
       some (⟨lines.getD 0 [], lines.getD 1 [], joinNl (lines.drop 2)⟩ :
         SubtitleRecord)
     else none) = some b := by
  obtain ⟨hi1, hi2, hi3, ht1, ht2, hx1, hx2, hx3, hx4⟩ := h
  have hsp : splitNl (blockStr b) =
      b.index :: b.timestamp :: splitNl b.text := by
    unfold blockStr
    rw [splitNl_append_no_nl b.index _ hi2,
      splitNl_append_no_nl b.timestamp _ ht2]
  have hlen : 3 ≤ (splitNl (blockStr b)).length := by
    rw [hsp]
    have := List.length_pos.mpr (splitNl_ne_nil b.text)
    simp only [List.length_cons]
    omega
  simp only []
  rw [hsp] at hlen ⊢
  rw [if_pos hlen]
  rw [show (b.index :: b.timestamp :: splitNl b.text).drop 2 =
    splitNl b.text from rfl, joinNl_splitNl]
  rfl

theorem filterMap_eq_self_of_some {α : Type} (f : α → Option α) :
    ∀ l : List α, (∀ a ∈ l, f a = some a) → l.filterMap f = l
  | [], _ => rfl
  | a :: l, h => by
    rw [List.filterMap_cons, h a (List.mem_cons_self a l),
      filterMap_eq_self_of_some f l
        (fun x hx => h x (List.mem_cons_of_mem a hx))]

/-- Claim C8 (amended): writing then parsing is the identity on every
block sequence whose records are well formed — nonempty single-line
index and timestamp, index not opening with whitespace, nonempty text
with no blank line inside, not opening with a newline nor closing with
whitespace.  (The unrestricted claim fails: see the counterexample.) -/
theorem srt_roundtrip (blocks : List SubtitleRecord)
    (hwf : ∀ b ∈ blocks, wfRecord b) :
    parse_srt (write_srt blocks) = blocks := by
  cases blocks with
  | nil => decide
  | cons b0 rest =>
    have hne : b0 :: rest ≠ [] := by simp
    have hLne : (b0 :: rest).map blockStr ≠ [] := by simp
    have hprops : ∀ s ∈ (b0 :: rest).map blockStr, s ≠ [] ∧
        hasDblNl s = false ∧ s.headI ≠ nl ∧ s.getLastD 'x' ≠ nl := by
      intro s hs
      obtain ⟨b, hbmem, rfl⟩ := List.mem_map.mp hs
      obtain ⟨hb1, hb2, hb3, hb4⟩ := blockStr_wf b (hwf b hbmem)
      obtain ⟨hi1, hi2, hi3, ht1, ht2, hx1, hx2, hx3, hx4⟩ := hwf b hbmem
      refine ⟨hb1, hb2, ?_, ?_⟩
      · rw [hb3]
        intro he
        rw [he] at hi3
        exact absurd hi3 (by simp [isPySpace, nl])
      · rw [hb4]
        intro he
        rw [he] at hx4
        exact absurd hx4 (by simp [isPySpace, nl])
    have hallne : ∀ s ∈ (b0 :: rest).map blockStr, s ≠ [] :=
      fun s hs => (hprops s hs).1
    have hXne : joinBlank ((b0 :: rest).map blockStr) ≠ [] :=
      joinBlank_ne_nil _ hLne hallne
    have hXhead : isPySpace (joinBlank ((b0 :: rest).map blockStr)).headI =
        false := by
      rw [List.map_cons,
        joinBlank_headI (rest.map blockStr) (blockStr b0)
          (blockStr_wf b0 (hwf b0 (by simp))).1,
        (blockStr_wf b0 (hwf b0 (by simp))).2.2.1]
      exact (hwf b0 (by simp)).2.2.1
    have hXlast : isPySpace
        ((joinBlank ((b0 :: rest).map blockStr)).getLastD 'x') = false := by
      rw [joinBlank_getLastD _ hLne hallne]
      have hmem := getLastD_mem ((b0 :: rest).map blockStr) [] hLne
      obtain ⟨b, hbmem, hbeq⟩ := List.mem_map.mp hmem
      rw [← hbeq, (blockStr_wf b (hwf b hbmem)).2.2.2]
      exact (hwf b hbmem).2.2.2.2.2.2.2.2
    rw [write_srt_eq_joinBlank (b0 :: rest) hne]
    unfold parse_srt
    rw [pyStrip_concat_double_nl _ hXne hXhead hXlast,
      splitBlank_joinBlank _ hLne hprops, List.filterMap_map]
    apply filterMap_eq_self_of_some
    intro b hbmem
    simp only [Function.comp_apply]
    exact parse_block_some b (hwf b hbmem)

/-- Witness for C8 at a concrete two-block sequence with two-line text
in the second block. -/
theorem srt_roundtrip_witness :
    (∀ b ∈ ([⟨['1'], ['t'], ['a']⟩,
        ⟨['2'], ['u'], ['b', nl, 'c']⟩] : List SubtitleRecord),
      wfRecord b) ∧
    parse_srt (write_srt [⟨['1'], ['t'], ['a']⟩,
        ⟨['2'], ['u'], ['b', nl, 'c']⟩]) =
      [⟨['1'], ['t'], ['a']⟩, ⟨['2'], ['u'], ['b', nl, 'c']⟩] :=
  ⟨by decide, srt_roundtrip _ (by decide)⟩

/-- Claim C8 counterexample: a record with empty text is dropped by the
parse, so parse-after-write is not the identity on all records. -/
theorem srt_roundtrip_counterexample :
    parse_srt (write_srt [⟨['1'], ['t'], []⟩]) = [] ∧
    ([] : List SubtitleRecord) ≠ [⟨['1'], ['t'], []⟩] := by
  decide
